import Mathlib

/-!
# Verification of the sorting-benchmark engine (`task_3.py`)

Shallow embedding of the benchmark engine: the three sorting algorithms
(`insertion_sort`, `merge_sort`, `timsort`), the dataset generator
(`make_dataset`), the timing harness (`time_algorithm`), the benchmark
orchestrator (`run_benchmarks`) and the growth-factor analyzer
(`compute_growth`), together with proofs of the specified properties.

Python machine-level details are embedded as follows: Python `int` is `Int`
(arbitrary precision, no overflow); Python `float` durations are modelled by
`PyFloat` (an exact rational or NaN, mirroring the float values that actually
arise: quotients of timer readings, and `float("nan")` sentinels); fallible
code returns `Except String`; the seeded Mersenne-Twister stream of
`random.Random(seed)` is modelled by a deterministic seed-keyed stream
(`randStream`), which is the documented observable contract (same seed, same
sequence); wall-clock durations are modelled by an abstract nonnegative cost
model supplied as parameters (`funcCost`, `copyCost`), since real time is not
part of the embedding.
-/

namespace SortBench

/-! ## Sorting algorithms (`task_3.py`, lines 29-60) -/

/-- `insertion_sort`, inner `while` loop (`task_3.py` lines 34-36 plus the
final write on line 37).  The Python loop variable `j` runs downward and may
reach `-1`; we use `jn = j + 1 : Nat`, so `jn = 0` is the exit `j = -1`.
`innerLoop jn key a` performs:
`while j >= 0 and key < a[j]: a[j+1] = a[j]; j -= 1` followed by
`a[j+1] = key`. -/
def innerLoop (key : Int) : Nat → List Int → List Int
  | 0, a => a.set 0 key
  | j + 1, a =>
    if key < a.getD j 0 then
      innerLoop key j (a.set (j + 1) (a.getD j 0))
    else
      a.set (j + 1) key

/-- `insertion_sort` (`task_3.py` lines 29-38): copies the input
(`a = lst[:]`), then for `i in range(1, len(a))` inserts `key = a[i]` into the
sorted prefix by the shifting inner loop (the loop starts at `j = i - 1`,
i.e. `jn = i`). -/
def insertion_sort (lst : List Int) : List Int :=
  (List.range' 1 (lst.length - 1)).foldl (fun a i => innerLoop (a.getD i 0) i a) lst

/-- `_merge` (`task_3.py` lines 40-50): repeatedly takes the smaller head,
the left side winning ties (`left[i] <= right[j]`), then appends the
remainder of whichever side is nonempty. -/
def pymerge : List Int → List Int → List Int
  | [], ys => ys
  | x :: xs, [] => x :: xs
  | x :: xs, y :: ys =>
    if x ≤ y then x :: pymerge xs (y :: ys)
    else y :: pymerge (x :: xs) ys
termination_by xs ys => xs.length + ys.length

/-- `merge_sort` (`task_3.py` lines 52-57): copies the input (`a = arr[:]`,
value-identical), returns it unchanged when `len(a) <= 1`, otherwise splits
at `mid = len(a) // 2` into `a[:mid]` / `a[mid:]`, recursively sorts both and
merges. -/
def merge_sort (arr : List Int) : List Int :=
  if h : arr.length ≤ 1 then arr
  else
    pymerge (merge_sort (arr.take (arr.length / 2)))
            (merge_sort (arr.drop (arr.length / 2)))
termination_by arr.length
decreasing_by
  · simp only [List.length_take]
    omega
  · simp only [List.length_drop]
    omega

/-- Sorted insertion of one key: scans from the left and places `key` before
the first strictly greater element.  This is the abstract effect of the
shifting inner loop of `insertion_sort`, and is also used as the model of the
platform sort below. -/
def insLt (key : Int) : List Int → List Int
  | [] => [key]
  | x :: xs => if key < x then key :: x :: xs else x :: insLt key xs

/-- Modelled from the spec: `timsort` (`task_3.py` lines 59-60) delegates to
the platform built-in `sorted`, an external capability; the spec licenses any
correct comparison sort as its model, so we model it as repeated sorted
insertion. -/
def pySorted (arr : List Int) : List Int :=
  arr.foldr insLt []

/-- `timsort` (`task_3.py` lines 59-60): `return sorted(arr)`. -/
def timsort (arr : List Int) : List Int :=
  pySorted arr

/-! ## Dataset generation (`task_3.py`, lines 71-86) -/

/-- Modelled from the spec: `random.Random(seed)` is an external pseudo-random
generator whose contract is a deterministic seed-keyed stream ("same seed ⇒
same sequence"); we model the raw stream by a 64-bit linear-congruential mix
of the seed and a call counter. -/
def randStream (seed ctr : Nat) : Nat :=
  (seed * 6364136223846793005 + ctr * 1442695040888963407 + 1013904223) %
    18446744073709551616

/-- State of one `random.Random` instance: its seed and how many raw draws
have been made. -/
structure RState where
  seed : Nat
  ctr : Nat
deriving Repr, DecidableEq

/-- One raw draw from the seeded stream. -/
def nextRaw (st : RState) : Nat × RState :=
  (randStream st.seed st.ctr, ⟨st.seed, st.ctr + 1⟩)

/-- `rnd.randint(0, hi)` (both bounds inclusive), as used on line 74 with
`hi = 1_000_000`. -/
def randint0 (st : RState) (hi : Nat) : Int × RState :=
  let (v, st') := nextRaw st
  (Int.ofNat (v % (hi + 1)), st')

/-- `rnd.randrange(n)`: uniform draw from `[0, n)`; Python raises
`ValueError("empty range for randrange()")` when `n = 0`. -/
def randrange (st : RState) (n : Nat) : Except String (Nat × RState) :=
  if n = 0 then .error "empty range for randrange()"
  else
    let (v, st') := nextRaw st
    .ok (v % n, st')

/-- The `random` branch (line 74): `[rnd.randint(0, 1_000_000) for _ in
range(n)]`, drawing left to right. -/
def genRandints (st : RState) : Nat → List Int
  | 0 => []
  | k + 1 =>
    let (v, st') := randint0 st 1000000
    v :: genRandints st' k

/-- The `sorted` branch (line 76): `list(range(n))`. -/
def sortedList (n : Nat) : List Int :=
  (List.range n).map Int.ofNat

/-- One Python swap `a[i], a[j] = a[j], a[i]` (line 84): the right-hand tuple
is evaluated first, then the two assignments happen, so both written values
are the *original* `a[j]` and `a[i]`. -/
def swapOnce (a : List Int) (i j : Nat) : List Int :=
  (a.set i (a.getD j 0)).set j (a.getD i 0)

/-- The `nearly_sorted` swap loop (lines 82-84): `swaps` iterations, each
drawing `i` then `j` with `rnd.randrange(n)` and swapping `a[i]` with `a[j]`.
A draw with `n = 0` propagates Python's `ValueError`. -/
def nearlyLoop (n : Nat) : Nat → List Int → RState → Except String (List Int × RState)
  | 0, a, st => .ok (a, st)
  | k + 1, a, st => do
    let (i, st1) ← randrange st n
    let (j, st2) ← randrange st1 n
    nearlyLoop n k (swapOnce a i j) st2

/-- `make_dataset` (`task_3.py` lines 71-86): dispatches on the pattern
string in source order; an unknown pattern raises
`ValueError("Unknown pattern")`.  For `nearly_sorted`, `swaps = max(1, n // 100)`
(line 81). -/
def make_dataset (n : Nat) (pattern : String) (seed : Nat) : Except String (List Int) :=
  if pattern == "random" then
    .ok (genRandints ⟨seed, 0⟩ n)
  else if pattern == "sorted" then
    .ok (sortedList n)
  else if pattern == "reversed" then
    .ok ((List.range n).map (fun k => (n : Int) - (k : Int)))
  else if pattern == "nearly_sorted" then do
    let a := sortedList n
    let swaps := max 1 (n / 100)
    let (b, _) ← nearlyLoop n swaps a ⟨seed, 0⟩
    .ok b
  else .error "Unknown pattern"

/-! ## Python float values and `min` / division semantics -/

/-- A Python float as it occurs in this program: an exact rational duration or
ratio, or `float("nan")` inserted by `compute_growth` for missing cells. -/
inductive PyFloat where
  | num (q : ℚ)
  | nan
deriving Repr, DecidableEq

/-- Python `<` on floats: ordinary comparison on numbers, and every comparison
involving a NaN is false. -/
def pyLtF : PyFloat → PyFloat → Bool
  | .num a, .num b => decide (a < b)
  | _, _ => false

/-- Python `min` over a nonempty sequence `v :: vs`: scan left to right,
replacing the current best only when the candidate is strictly smaller. -/
def pyFoldMin (v : PyFloat) (vs : List PyFloat) : PyFloat :=
  vs.foldl (fun cur x => if pyLtF x cur then x else cur) v

/-- Python `min` over a possibly-empty sequence: raises
`ValueError("min() arg is an empty sequence")` on the empty list. -/
def pyMin : List PyFloat → Except String PyFloat
  | [] => .error "min() arg is an empty sequence"
  | v :: vs => .ok (pyFoldMin v vs)

/-- Python float division: division by `0.0` raises `ZeroDivisionError`
(whatever the numerator, NaN included); otherwise any NaN operand yields NaN,
and two numbers divide exactly. -/
def pyDivF (a b : PyFloat) : Except String PyFloat :=
  match b with
  | .num qb =>
    if qb = 0 then .error "float division by zero"
    else
      match a with
      | .num qa => .ok (.num (qa / qb))
      | .nan => .ok .nan
  | .nan => .ok .nan

/-! ## Timing harness (`task_3.py`, lines 91-96)

Wall-clock time is modelled by an abstract cost model: `funcCost data` is the
duration of one call `func(x)` on a value `x` element-wise equal to `data`,
and `copyCost data` the duration of evaluating the copy `data[:]`.  Both are
parameters of the embedding. -/

/-- `timeit.Timer(stmt).repeat(repeat=repeats, number=1)`: a list of `repeats`
measurements, each the duration of one execution of `stmt`. -/
def timeit_repeat (trial : PyFloat) (repeats : Nat) : List PyFloat :=
  List.replicate repeats trial

/-- `time_algorithm` (`task_3.py` lines 91-96): `stmt` is
`func(data[:])` — the timed statement evaluates the copy *and* the sort call,
so one trial costs `copyCost data + funcCost data` — and the result is
`min(timer.repeat(repeat=repeats, number=1))`. -/
def time_algorithm (funcCost copyCost : List Int → ℚ) (data : List Int)
    (repeats : Nat) : Except String PyFloat :=
  pyMin (timeit_repeat (.num (copyCost data + funcCost data)) repeats)

/-- The timing harness as the spec words it, for comparison with
`time_algorithm`: the copy cost is *excluded* from the timed region, so one
trial costs `funcCost data` alone; the minimum of `repeats` trials is
returned. -/
def measure_specModel (funcCost : List Int → ℚ) (data : List Int)
    (repeats : Nat) : Except String PyFloat :=
  pyMin (timeit_repeat (.num (funcCost data)) repeats)

/-! ## Benchmark orchestrator (`task_3.py`, lines 62-66 and 98-115) -/

/-- One entry of the `rows` list built by `run_benchmarks`:
`{"pattern": ..., "n": ..., "algorithm": ..., "time_sec": ...}`. -/
structure MRow where
  pattern : String
  n : Nat
  algorithm : String
  time_sec : PyFloat
deriving Repr, DecidableEq

/-- The `ALGORITHMS` registry (`task_3.py` lines 62-66); a Python `dict`
preserves insertion order, so iteration order is registration order. -/
def ALGORITHMS : List (String × (List Int → List Int)) :=
  [("Insertion", insertion_sort),
   ("Merge", merge_sort),
   ("Timsort (built-in)", timsort)]

/-- The inner `for name, func in ALGORITHMS.items()` loop of `run_benchmarks`
(lines 104-106 and 110-114): measures each algorithm on `data` and appends a
row; when `skipQuad` is set (the large-size loop), `Insertion` is skipped by
`continue`. -/
def rowsFor (costOf : String → List Int → ℚ) (copyCost : List Int → ℚ)
    (pattern : String) (n : Nat) (data : List Int) (repeats : Nat)
    (skipQuad : Bool) :
    List (String × (List Int → List Int)) → Except String (List MRow)
  | [] => .ok []
  | (name, _) :: rest =>
    if skipQuad && name == "Insertion" then
      rowsFor costOf copyCost pattern n data repeats skipQuad rest
    else do
      let t ← time_algorithm (costOf name) copyCost data repeats
      let rs ← rowsFor costOf copyCost pattern n data repeats skipQuad rest
      .ok ({ pattern := pattern, n := n, algorithm := name, time_sec := t } :: rs)

/-- The per-size loop of `run_benchmarks` for one pattern: generate the
dataset once with the given fixed seed, then measure the (non-skipped)
algorithms on it. -/
def benchSizes (costOf : String → List Int → ℚ) (copyCost : List Int → ℚ)
    (pattern : String) (seed : Nat) (repeats : Nat) (skipQuad : Bool) :
    List Nat → Except String (List MRow)
  | [] => .ok []
  | n :: rest => do
    let data ← make_dataset n pattern seed
    let r1 ← rowsFor costOf copyCost pattern n data repeats skipQuad ALGORITHMS
    let r2 ← benchSizes costOf copyCost pattern seed repeats skipQuad rest
    .ok (r1 ++ r2)

/-- The pattern-major loop of `run_benchmarks` (lines 100-114): for each
pattern, first all small sizes with seed 123 and every algorithm, then all
large sizes with seed 777 skipping `Insertion`. -/
def benchPatterns (costOf : String → List Int → ℚ) (copyCost : List Int → ℚ)
    (sizes large_sizes : List Nat) (repeats : Nat) :
    List String → Except String (List MRow)
  | [] => .ok []
  | p :: rest => do
    let small ← benchSizes costOf copyCost p 123 repeats false sizes
    let large ← benchSizes costOf copyCost p 777 repeats true large_sizes
    let r ← benchPatterns costOf copyCost sizes large_sizes repeats rest
    .ok (small ++ large ++ r)

/-- `run_benchmarks` (`task_3.py` lines 98-115). -/
def run_benchmarks (costOf : String → List Int → ℚ) (copyCost : List Int → ℚ)
    (sizes large_sizes : List Nat) (patterns : List String) (repeats : Nat) :
    Except String (List MRow) :=
  benchPatterns costOf copyCost sizes large_sizes repeats patterns

/-- The key triple of a row, used to state ordering and uniqueness. -/
def keysOf (rows : List MRow) : List (String × Nat × String) :=
  rows.map (fun r => (r.pattern, r.n, r.algorithm))

/-! ## Growth-factor analyzer (`task_3.py`, lines 134-152) -/

/-- One entry of the list built by `compute_growth`. -/
structure GRow where
  pattern : String
  algorithm : String
  pair : String
  growth : PyFloat
deriving Repr, DecidableEq

/-- The fixed algorithm list of `compute_growth` (line 139). -/
def GROWTH_ALGOS : List String :=
  ["Insertion", "Merge", "Timsort (built-in)"]

/-- The fixed pattern ladder of `compute_growth` (line 136); note `"sorted"`
is absent. -/
def GROWTH_PATTERNS : List String :=
  ["random", "reversed", "nearly_sorted"]

/-- The row-selection condition of lines 142-143:
`r["pattern"] == pattern and r["n"] == n and r["algorithm"] == algo`. -/
def matchesCell (r : MRow) (pattern : String) (n : Nat) (algo : String) : Bool :=
  r.pattern == pattern && r.n == n && r.algorithm == algo

/-- One entry of the `ts` list (lines 141-145): all matching durations for
`(pattern, n, algo)`; `NaN` when none, else their Python `min`. -/
def cellTime (rows : List MRow) (pattern algo : String) (n : Nat) : PyFloat :=
  match (rows.filter (fun r => matchesCell r pattern n algo)).map
      (fun r => r.time_sec) with
  | [] => .nan
  | v :: vs => pyFoldMin v vs

/-- The body of the double loop of `compute_growth` for one
`(pattern, algo)`: `ts = [t(1000), t(2000), t(5000)]`,
`g1 = ts[1] / ts[0]`, `g2 = ts[2] / ts[1]`, two rows appended. -/
def growthCell (rows : List MRow) (pattern algo : String) :
    Except String (List GRow) := do
  let t0 := cellTime rows pattern algo 1000
  let t1 := cellTime rows pattern algo 2000
  let t2 := cellTime rows pattern algo 5000
  let g1 ← pyDivF t1 t0
  let g2 ← pyDivF t2 t1
  .ok [{ pattern := pattern, algorithm := algo, pair := "1k→2k", growth := g1 },
       { pattern := pattern, algorithm := algo, pair := "2k→5k", growth := g2 }]

/-- The inner `for algo in [...]` loop of `compute_growth`. -/
def growthAlgos (rows : List MRow) (pattern : String) :
    List String → Except String (List GRow)
  | [] => .ok []
  | a :: rest => do
    let c ← growthCell rows pattern a
    let r ← growthAlgos rows pattern rest
    .ok (c ++ r)

/-- The outer `for pattern in patterns` loop of `compute_growth`. -/
def growthPatterns (rows : List MRow) : List String → Except String (List GRow)
  | [] => .ok []
  | p :: rest => do
    let c ← growthAlgos rows p GROWTH_ALGOS
    let r ← growthPatterns rows rest
    .ok (c ++ r)

/-- `compute_growth` (`task_3.py` lines 134-152). -/
def compute_growth (rows : List MRow) : Except String (List GRow) :=
  growthPatterns rows GROWTH_PATTERNS

/-! ## Object store model (for the non-mutation property)

Python lists are mutable heap objects; whether `sort` mutates its argument is
a statement about object identity, not values.  We model the heap as a list
of list objects addressed by index: the caller's argument is a reference `r`,
`lst[:]` allocates a fresh object, and every Python element assignment
`a[i] = v` is an explicit `writeElem` against the object holding `a`. -/

/-- The heap: a list of list objects, addressed by position. -/
abbrev Store := List (List Int)

/-- Dereference `r` (a missing reference reads as `[]`; all uses stay in
bounds). -/
def readA (s : Store) (r : Nat) : List Int :=
  s.getD r []

/-- Python `a[i] = v` where reference `r` holds `a`. -/
def writeElem (s : Store) (r i : Nat) (v : Int) : Store :=
  s.set r ((readA s r).set i v)

/-- Allocate a fresh list object (e.g. the copy `lst[:]`), returning the new
store and the new reference. -/
def allocA (s : Store) (v : List Int) : Store × Nat :=
  (s ++ [v], s.length)

/-- The inner shifting loop of `insertion_sort` acting on the store: every
element assignment of lines 35 and 37 targets the copy's reference `ra`. -/
def innerLoopS (ra : Nat) (key : Int) : Nat → Store → Store
  | 0, s => writeElem s ra 0 key
  | j + 1, s =>
    if key < (readA s ra).getD j 0 then
      innerLoopS ra key j (writeElem s ra (j + 1) ((readA s ra).getD j 0))
    else
      writeElem s ra (j + 1) key

/-- `insertion_sort` on the store: allocate the copy `a = lst[:]` (line 30),
then run the outer loop, all writes going to the copy `ra`. -/
def insertion_sort_impl (s : Store) (r : Nat) : Store × Nat :=
  let (s1, ra) := allocA s (readA s r)
  let len := (readA s1 ra).length
  ((List.range' 1 (len - 1)).foldl
      (fun st i => innerLoopS ra ((readA st ra).getD i 0) i st) s1,
   ra)

/-- `merge_sort` on the store: the source performs no element assignment at
all (lines 40-57 only build fresh lists via slicing, `append` and `extend` on
a new `res`), so its heap effect is allocation of the result object holding
the value computed by the pure `merge_sort`. -/
def merge_sort_impl (s : Store) (r : Nat) : Store × Nat :=
  allocA s (merge_sort (readA s r))

/-- `timsort` on the store: `sorted(arr)` allocates and returns a new list,
leaving `arr` untouched. -/
def timsort_impl (s : Store) (r : Nat) : Store × Nat :=
  allocA s (timsort (readA s r))

/-! ## Correctness of the three sorting algorithms -/

theorem insLt_perm (k : Int) (l : List Int) : (insLt k l).Perm (k :: l) := by
  induction l with
  | nil => simp [insLt]
  | cons x xs ih =>
    by_cases h : k < x
    · simp [insLt, h]
    · simp only [insLt, if_neg h]
      exact (ih.cons x).trans (List.Perm.swap k x xs)

theorem insLt_sorted (k : Int) {l : List Int} (h : l.Sorted (· ≤ ·)) :
    (insLt k l).Sorted (· ≤ ·) := by
  induction l with
  | nil => simp [insLt]
  | cons x xs ih =>
    rcases List.sorted_cons.mp h with ⟨hx, hxs⟩
    by_cases hk : k < x
    · simp only [insLt, if_pos hk]
      refine List.sorted_cons.mpr ⟨?_, h⟩
      intro b hb
      rcases List.mem_cons.mp hb with rfl | hb
      · exact le_of_lt hk
      · exact le_trans (le_of_lt hk) (hx b hb)
    · simp only [insLt, if_neg hk]
      refine List.sorted_cons.mpr ⟨?_, ih hxs⟩
      intro b hb
      rcases List.mem_cons.mp ((insLt_perm k xs).mem_iff.mp hb) with rfl | hb'
      · exact le_of_not_lt hk
      · exact hx b hb'

theorem insLt_length (k : Int) (l : List Int) :
    (insLt k l).length = l.length + 1 := by
  induction l with
  | nil => simp [insLt]
  | cons x xs ih =>
    by_cases h : k < x
    · simp [insLt, h]
    · simp [insLt, h, ih]

theorem insLt_all_le (k : Int) {l : List Int} (h : ∀ x ∈ l, ¬ k < x) :
    insLt k l = l ++ [k] := by
  induction l with
  | nil => simp [insLt]
  | cons x xs ih =>
    have hx : ¬ k < x := h x (by simp)
    simp only [insLt, if_neg hx, List.cons_append, List.cons.injEq, true_and]
    exact ih (fun y hy => h y (by simp [hy]))

theorem insLt_append_gt (k : Int) {x : Int} (hk : k < x) (l : List Int) :
    insLt k (l ++ [x]) = insLt k l ++ [x] := by
  induction l with
  | nil => simp [insLt, hk]
  | cons y ys ih =>
    by_cases h : k < y
    · simp [insLt, h]
    · simp [insLt, h, ih]

theorem pySorted_perm (l : List Int) : (pySorted l).Perm l := by
  induction l with
  | nil => simp [pySorted]
  | cons x xs ih =>
    exact (insLt_perm x (pySorted xs)).trans (ih.cons x)

theorem pySorted_sorted (l : List Int) : (pySorted l).Sorted (· ≤ ·) := by
  induction l with
  | nil => simp [pySorted]
  | cons x xs ih => exact insLt_sorted x ih

theorem pymerge_nil_left (ys : List Int) : pymerge [] ys = ys := by
  cases ys <;> simp [pymerge]

theorem pymerge_nil_right (x : Int) (xs : List Int) :
    pymerge (x :: xs) [] = x :: xs := by
  simp [pymerge]

theorem pymerge_cons_cons (x y : Int) (xs ys : List Int) :
    pymerge (x :: xs) (y :: ys) =
      if x ≤ y then x :: pymerge xs (y :: ys) else y :: pymerge (x :: xs) ys := by
  simp [pymerge]

theorem pymerge_perm : ∀ (xs ys : List Int), (pymerge xs ys).Perm (xs ++ ys) := by
  intro xs
  induction xs with
  | nil => intro ys; simp [pymerge_nil_left]
  | cons x xs ihx =>
    intro ys
    induction ys with
    | nil => simp [pymerge_nil_right]
    | cons y ys ihy =>
      rw [pymerge_cons_cons]
      by_cases h : x ≤ y
      · rw [if_pos h]
        exact ((ihx (y :: ys)).cons x)
      · rw [if_neg h]
        exact (ihy.cons y).trans List.perm_middle.symm

theorem pymerge_sorted : ∀ {xs ys : List Int}, xs.Sorted (· ≤ ·) →
    ys.Sorted (· ≤ ·) → (pymerge xs ys).Sorted (· ≤ ·) := by
  intro xs
  induction xs with
  | nil => intro ys _ hy; rw [pymerge_nil_left]; exact hy
  | cons x xs ihx =>
    intro ys hx hy
    induction ys with
    | nil => rw [pymerge_nil_right]; exact hx
    | cons y ys ihy =>
      rcases List.sorted_cons.mp hx with ⟨hxall, hxs⟩
      rcases List.sorted_cons.mp hy with ⟨hyall, hys⟩
      rw [pymerge_cons_cons]
      by_cases h : x ≤ y
      · rw [if_pos h]
        refine List.sorted_cons.mpr ⟨?_, ihx hxs hy⟩
        intro b hb
        rcases List.mem_append.mp ((pymerge_perm xs (y :: ys)).mem_iff.mp hb) with
          hb | hb
        · exact hxall b hb
        · rcases List.mem_cons.mp hb with rfl | hb
          · exact h
          · exact le_trans h (hyall b hb)
      · rw [if_neg h]
        have hyx : y ≤ x := le_of_not_le h
        refine List.sorted_cons.mpr ⟨?_, ihy hys⟩
        intro b hb
        rcases List.mem_append.mp ((pymerge_perm (x :: xs) ys).mem_iff.mp hb) with
          hb | hb
        · rcases List.mem_cons.mp hb with rfl | hb
          · exact hyx
          · exact le_trans hyx (hxall b hb)
        · exact hyall b hb

theorem merge_sort_bounded : ∀ (n : Nat) (arr : List Int), arr.length ≤ n →
    (merge_sort arr).Perm arr ∧ (merge_sort arr).Sorted (· ≤ ·) := by
  intro n
  induction n with
  | zero =>
    intro arr h
    have h1 : arr.length ≤ 1 := by omega
    rw [merge_sort, dif_pos h1]
    have : arr = [] := List.length_eq_zero.mp (by omega)
    subst this
    exact ⟨List.Perm.refl _, List.sorted_nil⟩
  | succ n ih =>
    intro arr h
    by_cases h1 : arr.length ≤ 1
    · rw [merge_sort, dif_pos h1]
      refine ⟨List.Perm.refl _, ?_⟩
      match arr, h1 with
      | [], _ => exact List.sorted_nil
      | [x], _ => exact List.sorted_singleton x
    · rw [merge_sort, dif_neg h1]
      have hL : (arr.take (arr.length / 2)).length ≤ n := by
        simp only [List.length_take]
        omega
      have hR : (arr.drop (arr.length / 2)).length ≤ n := by
        simp only [List.length_drop]
        omega
      obtain ⟨pL, sL⟩ := ih _ hL
      obtain ⟨pR, sR⟩ := ih _ hR
      refine ⟨?_, pymerge_sorted sL sR⟩
      have hp := (pymerge_perm _ _).trans (pL.append pR)
      rwa [List.take_append_drop] at hp

/-! ### Imperative insertion sort: inner loop and outer loop -/

theorem take_set_of_le (a : List Int) (m t : Nat) (v : Int) (h : t ≤ m) :
    (a.set m v).take t = a.take t := by
  apply List.ext_getElem?
  intro k
  rw [List.getElem?_take, List.getElem?_take]
  by_cases hk : k < t
  · rw [if_pos hk, if_pos hk, List.getElem?_set_ne (by omega)]
  · rw [if_neg hk, if_neg hk]

theorem drop_set_of_lt (a : List Int) (m t : Nat) (v : Int) (h : m < t) :
    (a.set m v).drop t = a.drop t := by
  apply List.ext_getElem?
  intro k
  rw [List.getElem?_drop, List.getElem?_drop, List.getElem?_set_ne (by omega)]

theorem innerLoop_eq : ∀ (jn : Nat) (a : List Int) (key : Int),
    jn < a.length → (a.take jn).Sorted (· ≤ ·) →
    innerLoop key jn a = insLt key (a.take jn) ++ a.drop (jn + 1) := by
  intro jn
  induction jn with
  | zero =>
    intro a key hj _
    cases a with
    | nil => simp at hj
    | cons x xs => simp [innerLoop, insLt]
  | succ j ihj =>
    intro a key hj hs
    have hjlen : j < a.length := by omega
    have hgd : a.getD j 0 = a[j] := List.getD_eq_getElem a 0 hjlen
    have htake : a.take (j + 1) = a.take j ++ [a[j]] := by
      rw [← List.take_concat_get a j hjlen, List.concat_eq_append]
    have hset : a.set (j + 1) key = a.take (j + 1) ++ key :: a.drop (j + 2) := by
      rw [List.set_eq_take_append_cons_drop, if_pos hj]
    by_cases hlt : key < a.getD j 0
    · simp only [innerLoop, if_pos hlt]
      have hlt' : key < a[j] := hgd ▸ hlt
      have htakej : (a.take j).Sorted (· ≤ ·) := by
        have heq : a.take j = (a.take (j + 1)).take j := by
          rw [List.take_take]
          congr 1
          omega
        rw [heq]
        exact List.Pairwise.sublist (List.take_sublist j _) hs
      have htake' : (a.set (j + 1) (a.getD j 0)).take j = a.take j :=
        take_set_of_le a _ _ _ (by omega)
      have hsj : ((a.set (j + 1) (a.getD j 0)).take j).Sorted (· ≤ ·) := by
        rw [htake']
        exact htakej
      have hres := ihj (a.set (j + 1) (a.getD j 0)) key
        (by rw [List.length_set]; omega) hsj
      rw [hres, htake']
      have hlen2 : j + 1 < (a.set (j + 1) (a.getD j 0)).length := by
        rw [List.length_set]
        omega
      have hdrop' : (a.set (j + 1) (a.getD j 0)).drop (j + 1) =
          a[j] :: a.drop (j + 2) := by
        rw [List.drop_eq_getElem_cons hlen2, List.getElem_set_self hlen2,
          drop_set_of_lt a _ _ _ (by omega), hgd]
      rw [hdrop', htake, insLt_append_gt key hlt']
      simp
    · simp only [innerLoop, if_neg hlt]
      have hle : a[j] ≤ key := le_of_not_lt (hgd ▸ hlt)
      have hall : ∀ x ∈ a.take (j + 1), ¬ key < x := by
        intro x hx
        rw [htake] at hx hs
        rcases List.mem_append.mp hx with hx | hx
        · rcases List.pairwise_append.mp hs with ⟨_, _, hcross⟩
          have : x ≤ a[j] := hcross x hx a[j] (by simp)
          exact not_lt.mpr (le_trans this hle)
        · have : x = a[j] := by simpa using hx
          exact this ▸ not_lt.mpr hle
      rw [hset, insLt_all_le key hall]
      simp

theorem sortLoop : ∀ (k i : Nat) (a : List Int), 0 < i → a.length = i + k →
    (a.take i).Sorted (· ≤ ·) →
    (((List.range' i k).foldl (fun b m => innerLoop (b.getD m 0) m b) a)).Perm a ∧
    (((List.range' i k).foldl (fun b m => innerLoop (b.getD m 0) m b) a)).Sorted
      (· ≤ ·) := by
  intro k
  induction k with
  | zero =>
    intro i a hi hlen hs
    simp only [List.range', List.foldl_nil]
    refine ⟨List.Perm.refl a, ?_⟩
    rwa [List.take_of_length_le (by omega)] at hs
  | succ k ih =>
    intro i a hi hlen hs
    rw [List.range'_succ, List.foldl_cons]
    have hilen : i < a.length := by omega
    have hgd : a.getD i 0 = a[i] := List.getD_eq_getElem a 0 hilen
    have hstep : innerLoop (a.getD i 0) i a =
        insLt (a.getD i 0) (a.take i) ++ a.drop (i + 1) :=
      innerLoop_eq i a (a.getD i 0) hilen hs
    have hlen' : (insLt (a.getD i 0) (a.take i) ++ a.drop (i + 1)).length =
        a.length := by
      rw [List.length_append, insLt_length, List.length_take, List.length_drop]
      omega
    have hperm : (insLt (a.getD i 0) (a.take i) ++ a.drop (i + 1)).Perm a := by
      have h1 := (insLt_perm (a.getD i 0) (a.take i)).append_right (a.drop (i + 1))
      have h2 : ((a.getD i 0 :: a.take i) ++ a.drop (i + 1)).Perm
          (a.take i ++ a.getD i 0 :: a.drop (i + 1)) := List.perm_middle.symm
      have h3 : a.take i ++ a.getD i 0 :: a.drop (i + 1) = a := by
        rw [hgd, ← List.drop_eq_getElem_cons hilen, List.take_append_drop]
      refine h1.trans (h2.trans ?_)
      rw [h3]
    have htake1 : (insLt (a.getD i 0) (a.take i) ++ a.drop (i + 1)).take (i + 1) =
        insLt (a.getD i 0) (a.take i) := by
      apply List.take_left'
      rw [insLt_length, List.length_take]
      omega
    have hsorted1 : ((insLt (a.getD i 0) (a.take i) ++ a.drop (i + 1)).take
        (i + 1)).Sorted (· ≤ ·) := by
      rw [htake1]
      exact insLt_sorted _ hs
    obtain ⟨p, s⟩ := ih (i + 1) (insLt (a.getD i 0) (a.take i) ++ a.drop (i + 1))
      (by omega) (by rw [hlen', hlen]; omega) hsorted1
    rw [hstep]
    exact ⟨p.trans hperm, s⟩

/-- C1: for each of the three sorting algorithms (insertion sort, merge sort
and the adaptive baseline `timsort`) and every finite list of integers `d`,
the output of the sort is a permutation of `d` (same multiset) and is in
non-decreasing order. -/
theorem claim_C1_all_sorts_perm_and_sorted (d : List Int) :
    ((insertion_sort d).Perm d ∧ (insertion_sort d).Sorted (· ≤ ·)) ∧
    ((merge_sort d).Perm d ∧ (merge_sort d).Sorted (· ≤ ·)) ∧
    ((timsort d).Perm d ∧ (timsort d).Sorted (· ≤ ·)) := by
  refine ⟨?_, merge_sort_bounded d.length d le_rfl,
    pySorted_perm d, pySorted_sorted d⟩
  cases d with
  | nil => exact ⟨by simp [insertion_sort], by simp [insertion_sort]⟩
  | cons x xs =>
    have h := sortLoop xs.length 1 (x :: xs) Nat.one_pos
      (by simp [Nat.add_comm]) (by simp)
    simpa [insertion_sort] using h

/-! ## Dataset generator: error handling and determinism -/

/-- C2 counterexample: with `pattern = "nearly_sorted"` and `size = 0` the
generator does *not* return the empty sequence — `swaps = max(1, 0 // 100) = 1`
forces one loop iteration and `rnd.randrange(0)` raises `ValueError`. -/
theorem claim_C2_counterexample :
    make_dataset 0 "nearly_sorted" 1 =
      Except.error "empty range for randrange()" ∧
    make_dataset 0 "nearly_sorted" 1 ≠ Except.ok [] := by
  refine ⟨rfl, fun h => ?_⟩
  have e : make_dataset 0 "nearly_sorted" 1 =
      Except.error "empty range for randrange()" := rfl
  rw [e] at h
  exact Except.noConfusion h

/-- C2 (amended): an unknown pattern fails with the `InvalidPattern` error
(`ValueError("Unknown pattern")`) for every size and seed; `size = 0` yields
the empty sequence without error for the `random`, `sorted` and `reversed`
patterns, while for `nearly_sorted` it raises the empty-randrange
`ValueError` instead. -/
theorem claim_C2_amended_generate_errors (p : String)
    (hp : p ∉ (["random", "sorted", "reversed", "nearly_sorted"] : List String)) :
    (∀ (n seed : Nat), make_dataset n p seed = Except.error "Unknown pattern") ∧
    (∀ seed : Nat,
      make_dataset 0 "random" seed = Except.ok [] ∧
      make_dataset 0 "sorted" seed = Except.ok [] ∧
      make_dataset 0 "reversed" seed = Except.ok [] ∧
      make_dataset 0 "nearly_sorted" seed =
        Except.error "empty range for randrange()") := by
  have h1 : p ≠ "random" := fun h => hp (by simp [h])
  have h2 : p ≠ "sorted" := fun h => hp (by simp [h])
  have h3 : p ≠ "reversed" := fun h => hp (by simp [h])
  have h4 : p ≠ "nearly_sorted" := fun h => hp (by simp [h])
  refine ⟨fun n seed => ?_, fun seed => ⟨rfl, rfl, rfl, rfl⟩⟩
  simp [make_dataset, h1, h2, h3, h4]

theorem claim_C2_amended_witness :
    make_dataset 3 "pattern_x" 5 = Except.error "Unknown pattern" ∧
    make_dataset 0 "nearly_sorted" 5 =
      Except.error "empty range for randrange()" :=
  ⟨(claim_C2_amended_generate_errors "pattern_x" (by decide)).1 3 5,
   ((claim_C2_amended_generate_errors "pattern_x" (by decide)).2 5).2.2.2⟩

/-- C7: for every supported pattern, size and seed, two calls to the
generator with identical `(size, pattern, seed)` produce identical results
(`make_dataset` is a deterministic function of its arguments; the seeded
stream is keyed only by the seed). -/
theorem claim_C7_generate_deterministic (n : Nat) (p : String) (seed : Nat)
    (out1 out2 : Except String (List Int))
    (h1 : make_dataset n p seed = out1) (h2 : make_dataset n p seed = out2) :
    out1 = out2 :=
  h1.symm.trans h2

theorem claim_C7_witness :
    make_dataset 5 "reversed" 42 = make_dataset 5 "reversed" 42 :=
  claim_C7_generate_deterministic 5 "reversed" 42 _ _ rfl rfl

/-! ## The `nearly_sorted` pattern: permutation and bounded disorder -/

/-- Number of positions at which two (equal-length) lists differ. -/
def diffCount (a b : List Int) : Nat :=
  (a.zip b).countP (fun p => p.1 != p.2)

theorem diffCount_self (a : List Int) : diffCount a a = 0 := by
  induction a with
  | nil => rfl
  | cons x xs ih =>
    simp only [diffCount, List.zip_cons_cons, List.countP_cons] at *
    simp [ih]

theorem diffCount_triangle : ∀ (a b c : List Int), a.length = b.length →
    b.length = c.length → diffCount a c ≤ diffCount a b + diffCount b c := by
  intro a
  induction a with
  | nil =>
    intro b c _ _
    simp [diffCount]
  | cons x as ih =>
    intro b c h1 h2
    cases b with
    | nil => simp at h1
    | cons y bs =>
      cases c with
      | nil => simp at h2
      | cons z cs =>
        have hrec := ih bs cs (by simpa using h1) (by simpa using h2)
        simp only [diffCount, List.zip_cons_cons, List.countP_cons] at *
        have hhead : (if (x != z) = true then 1 else 0) ≤
            (if (x != y) = true then 1 else 0) +
            ((if (y != z) = true then 1 else 0) : Nat) := by
          by_cases e1 : x = z <;> by_cases e2 : x = y <;> by_cases e3 : y = z <;>
            simp [e1, e2, e3]
        omega

theorem diffCount_set_le (v : Int) :
    ∀ (l : List Int) (m : Nat), diffCount (l.set m v) l ≤ 1 := by
  intro l
  induction l with
  | nil =>
    intro m
    simp [diffCount]
  | cons x xs ih =>
    intro m
    cases m with
    | zero =>
      simp only [List.set_cons_zero, diffCount, List.zip_cons_cons,
        List.countP_cons]
      have : (xs.zip xs).countP (fun p => p.1 != p.2) = 0 := diffCount_self xs
      simp [this]
      split <;> omega
    | succ m =>
      simp only [List.set_cons_succ, diffCount, List.zip_cons_cons,
        List.countP_cons]
      have := ih m
      simp only [diffCount] at this
      simp
      omega

theorem swapOnce_length (a : List Int) (i j : Nat) :
    (swapOnce a i j).length = a.length := by
  simp [swapOnce]

theorem swapOnce_diff_le (a : List Int) (i j : Nat) :
    diffCount (swapOnce a i j) a ≤ 2 := by
  have h1 : diffCount (swapOnce a i j) a ≤
      diffCount (swapOnce a i j) (a.set i (a.getD j 0)) +
      diffCount (a.set i (a.getD j 0)) a := by
    apply diffCount_triangle <;> simp [swapOnce]
  have h2 : diffCount (swapOnce a i j) (a.set i (a.getD j 0)) ≤ 1 :=
    diffCount_set_le _ _ _
  have h3 : diffCount (a.set i (a.getD j 0)) a ≤ 1 := diffCount_set_le _ _ _
  omega

theorem getD_cons_set_perm : ∀ (xs : List Int) (k : Nat) (v : Int),
    k < xs.length → (xs.getD k 0 :: xs.set k v).Perm (v :: xs) := by
  intro xs
  induction xs with
  | nil =>
    intro k v h
    simp at h
  | cons y ys ih =>
    intro k v h
    cases k with
    | zero => simpa using List.Perm.swap v y ys
    | succ k =>
      have h' : k < ys.length := by simpa using h
      exact (List.Perm.swap y (ys.getD k 0) (ys.set k v)).trans
        (((ih k v h').cons y).trans (List.Perm.swap v y ys))

theorem swapOnce_perm : ∀ (a : List Int) (i j : Nat), i < a.length →
    j < a.length → (swapOnce a i j).Perm a := by
  intro a
  induction a with
  | nil =>
    intro i j hi _
    simp at hi
  | cons x xs ih =>
    intro i j hi hj
    cases i with
    | zero =>
      cases j with
      | zero => simp [swapOnce]
      | succ j =>
        have hj' : j < xs.length := by simpa using hj
        have heq : swapOnce (x :: xs) 0 (j + 1) = xs.getD j 0 :: xs.set j x := by
          simp [swapOnce]
        rw [heq]
        exact getD_cons_set_perm xs j x hj'
    | succ i =>
      cases j with
      | zero =>
        have hi' : i < xs.length := by simpa using hi
        have heq : swapOnce (x :: xs) (i + 1) 0 = xs.getD i 0 :: xs.set i x := by
          simp [swapOnce]
        rw [heq]
        exact getD_cons_set_perm xs i x hi'
      | succ j =>
        have heq : swapOnce (x :: xs) (i + 1) (j + 1) = x :: swapOnce xs i j := by
          simp [swapOnce]
        rw [heq]
        exact (ih i j (by simpa using hi) (by simpa using hj)).cons x

theorem nearlyLoop_succ_eq (n k : Nat) (a : List Int) (st : RState)
    (hn : n ≠ 0) :
    nearlyLoop n (k + 1) a st =
      nearlyLoop n k
        (swapOnce a ((nextRaw st).1 % n) ((nextRaw (nextRaw st).2).1 % n))
        (nextRaw (nextRaw st).2).2 := by
  simp only [nearlyLoop, randrange, if_neg hn]
  rfl

theorem nearlyLoop_ok : ∀ (k n : Nat) (a : List Int) (st : RState), 0 < n →
    a.length = n →
    ∃ b st', nearlyLoop n k a st = Except.ok (b, st') ∧ b.Perm a ∧
      b.length = n ∧ diffCount b a ≤ 2 * k := by
  intro k
  induction k with
  | zero =>
    intro n a st _ ha
    exact ⟨a, st, rfl, List.Perm.refl a, ha, by simp [diffCount_self]⟩
  | succ k ih =>
    intro n a st hn ha
    have hn' : n ≠ 0 := by omega
    have hi : (nextRaw st).1 % n < n := Nat.mod_lt _ hn
    have hj : (nextRaw (nextRaw st).2).1 % n < n := Nat.mod_lt _ hn
    obtain ⟨b, st', heq, hperm, hlen, hdiff⟩ := ih n
      (swapOnce a ((nextRaw st).1 % n) ((nextRaw (nextRaw st).2).1 % n))
      (nextRaw (nextRaw st).2).2 hn (by rw [swapOnce_length]; exact ha)
    refine ⟨b, st', ?_, ?_, hlen, ?_⟩
    · rw [nearlyLoop_succ_eq n k a st hn']
      exact heq
    · refine hperm.trans (swapOnce_perm a _ _ ?_ ?_)
      · rw [ha]
        exact hi
      · rw [ha]
        exact hj
    · have htri : diffCount b a ≤
          diffCount b (swapOnce a ((nextRaw st).1 % n)
            ((nextRaw (nextRaw st).2).1 % n)) +
          diffCount (swapOnce a ((nextRaw st).1 % n)
            ((nextRaw (nextRaw st).2).1 % n)) a := by
        apply diffCount_triangle
        · rw [hlen, swapOnce_length, ha]
        · rw [swapOnce_length]
      have hsw := swapOnce_diff_le a ((nextRaw st).1 % n)
        ((nextRaw (nextRaw st).2).1 % n)
      omega

/-- `make_dataset` on the `nearly_sorted` branch, unfolded. -/
theorem make_dataset_nearly_eq (n seed : Nat) :
    make_dataset n "nearly_sorted" seed =
      (nearlyLoop n (max 1 (n / 100)) (sortedList n) ⟨seed, 0⟩).bind
        (fun p => Except.ok p.1) := by
  cases hnl : nearlyLoop n (max 1 (n / 100)) (sortedList n) ⟨seed, 0⟩ with
  | error e =>
    show (nearlyLoop n (max 1 (n / 100)) (sortedList n) ⟨seed, 0⟩).bind _ = _
    rw [hnl]
  | ok p =>
    show (nearlyLoop n (max 1 (n / 100)) (sortedList n) ⟨seed, 0⟩).bind _ = _
    rw [hnl]

/-- C8: for every seed, `generate(1000, "nearly_sorted", seed)` succeeds,
is a permutation of the sorted sequence `0..999`, and differs from it in at
most `2 * max(1, 1000 // 100) = 20` positions. -/
theorem claim_C8_nearly_sorted_1000 (seed : Nat) :
    ∃ a : List Int, make_dataset 1000 "nearly_sorted" seed = Except.ok a ∧
      a.Perm (sortedList 1000) ∧ diffCount a (sortedList 1000) ≤ 20 := by
  obtain ⟨b, st', heq, hperm, _, hdiff⟩ :=
    nearlyLoop_ok 10 1000 (sortedList 1000) ⟨seed, 0⟩ (by omega)
      (by simp [sortedList])
  refine ⟨b, ?_, hperm, by omega⟩
  rw [make_dataset_nearly_eq, show max 1 (1000 / 100) = 10 from rfl, heq]
  rfl

/-! ## Timing harness -/

theorem pyFoldMin_replicate (v : PyFloat) :
    ∀ r, pyFoldMin v (List.replicate r v) = v := by
  intro r
  induction r with
  | zero => rfl
  | succ r ih =>
    simp only [List.replicate_succ, pyFoldMin, List.foldl_cons]
    rw [ite_self]
    exact ih

/-- C3 counterexample: the claim says the copy cost is excluded from the
timed region, but `stmt` is `func(data[:])`, so `timeit` measures the copy
*plus* the sort.  With sort cost 2 and copy cost 1 the harness reports 3,
while the spec's model (copy excluded) reports 2. -/
theorem claim_C3_counterexample :
    time_algorithm (fun _ => 2) (fun _ => 1) [] 1 = Except.ok (PyFloat.num 3) ∧
    measure_specModel (fun _ => 2) [] 1 = Except.ok (PyFloat.num 2) ∧
    time_algorithm (fun _ => 2) (fun _ => 1) [] 1 ≠
      measure_specModel (fun _ => 2) [] 1 := by
  have e1 : time_algorithm (fun _ => 2) (fun _ => 1) [] 1 =
      Except.ok (PyFloat.num (1 + 2)) := rfl
  have e2 : measure_specModel (fun _ => 2) [] 1 =
      Except.ok (PyFloat.num 2) := rfl
  refine ⟨by rw [e1]; norm_num, e2, fun h => ?_⟩
  rw [e1, e2] at h
  injection h with h2
  injection h2 with h3
  norm_num at h3

/-- C3 (amended): for every cost model, dataset and positive repeat count,
the harness runs exactly `repeats` independent trials, each trial timing one
execution of the statement `func(data[:])` — one sort call against a fresh
copy of the dataset, with the cost of making that copy *included* in the
timed region — and returns the minimum duration observed across the
trials. -/
theorem claim_C3_amended_min_of_trials (funcCost copyCost : List Int → ℚ)
    (data : List Int) (repeats : Nat) (h : 0 < repeats) :
    (timeit_repeat (.num (copyCost data + funcCost data)) repeats).length =
      repeats ∧
    time_algorithm funcCost copyCost data repeats =
      Except.ok (.num (copyCost data + funcCost data)) := by
  refine ⟨by simp [timeit_repeat], ?_⟩
  obtain ⟨r, rfl⟩ : ∃ r, repeats = r + 1 := ⟨repeats - 1, by omega⟩
  simp only [time_algorithm, timeit_repeat, List.replicate_succ, pyMin]
  rw [pyFoldMin_replicate]

theorem claim_C3_amended_witness :
    0 < 3 ∧ time_algorithm (fun _ => 5) (fun _ => 2) [1, 2] 3 =
      Except.ok (PyFloat.num (2 + 5)) :=
  ⟨by decide,
   (claim_C3_amended_min_of_trials (fun _ => 5) (fun _ => 2) [1, 2] 3
      (by decide)).2⟩

/-! ## Benchmark orchestrator: row order, coverage and uniqueness -/

theorem except_ok_bind {α β : Type} (a : α) (f : α → Except String β) :
    ((Except.ok a : Except String α) >>= f) = f a := rfl

theorem except_error_bind {α β : Type} (e : String)
    (f : α → Except String β) :
    ((Except.error e : Except String α) >>= f) = Except.error e := rfl

theorem time_algorithm_of_pos (funcCost copyCost : List Int → ℚ)
    (data : List Int) (repeats : Nat) (h : 0 < repeats) :
    time_algorithm funcCost copyCost data repeats =
      Except.ok (.num (copyCost data + funcCost data)) := by
  obtain ⟨r, rfl⟩ : ∃ r, repeats = r + 1 := ⟨repeats - 1, by omega⟩
  simp only [time_algorithm, timeit_repeat, List.replicate_succ, pyMin]
  rw [pyFoldMin_replicate]

/-- The key triples that `run_benchmarks` is expected to emit, written
directly from the spec's description of the order: pattern-major, then small
sizes before large sizes, then algorithm-registration order, with only the
non-quadratic algorithms at large sizes. -/
def expectedKeys (sizes large_sizes : List Nat) (patterns : List String) :
    List (String × Nat × String) :=
  patterns.flatMap (fun p =>
    sizes.flatMap (fun n =>
      ["Insertion", "Merge", "Timsort (built-in)"].map (fun a => (p, n, a))) ++
    large_sizes.flatMap (fun n =>
      ["Merge", "Timsort (built-in)"].map (fun a => (p, n, a))))

theorem rowsFor_keys (costOf : String → List Int → ℚ)
    (copyCost : List Int → ℚ) (pattern : String) (nn : Nat) (data : List Int)
    (repeats : Nat) (skipQuad : Bool) :
    ∀ (names : List (String × (List Int → List Int))) (l : List MRow),
    rowsFor costOf copyCost pattern nn data repeats skipQuad names =
      Except.ok l →
    keysOf l = (names.filter
        (fun nm => !(skipQuad && nm.1 == "Insertion"))).map
        (fun nm => (pattern, nn, nm.1)) := by
  intro names
  induction names with
  | nil =>
    intro l h
    injection h with h
    subst h
    rfl
  | cons nmf rest ih =>
    obtain ⟨name, f⟩ := nmf
    intro l h
    cases hs : (skipQuad && name == "Insertion") with
    | true =>
      rw [rowsFor, if_pos hs] at h
      rw [List.filter_cons]
      simp only [hs, Bool.not_true, if_neg (by simp : ¬ (false = true))]
      exact ih l h
    | false =>
      rw [rowsFor, if_neg (by simp [hs])] at h
      cases ht : time_algorithm (costOf name) copyCost data repeats with
      | error e =>
        rw [ht, except_error_bind] at h
        exact Except.noConfusion h
      | ok t =>
        rw [ht, except_ok_bind] at h
        cases hr : rowsFor costOf copyCost pattern nn data repeats skipQuad
            rest with
        | error e =>
          rw [hr, except_error_bind] at h
          exact Except.noConfusion h
        | ok rs =>
          rw [hr, except_ok_bind] at h
          injection h with h
          subst h
          rw [List.filter_cons]
          have hthis := ih rs hr
          simp only [keysOf] at hthis ⊢
          simp [hs, hthis]

theorem benchSizes_keys (costOf : String → List Int → ℚ)
    (copyCost : List Int → ℚ) (pattern : String) (seed repeats : Nat)
    (skipQuad : Bool) :
    ∀ (ns : List Nat) (l : List MRow),
    benchSizes costOf copyCost pattern seed repeats skipQuad ns =
      Except.ok l →
    keysOf l = ns.flatMap (fun n =>
      (ALGORITHMS.filter (fun nm => !(skipQuad && nm.1 == "Insertion"))).map
        (fun nm => (pattern, n, nm.1))) := by
  intro ns
  induction ns with
  | nil =>
    intro l h
    injection h with h
    subst h
    rfl
  | cons n rest ih =>
    intro l h
    rw [benchSizes] at h
    cases hd : make_dataset n pattern seed with
    | error e =>
      rw [hd, except_error_bind] at h
      exact Except.noConfusion h
    | ok data =>
      rw [hd, except_ok_bind] at h
      cases hr : rowsFor costOf copyCost pattern n data repeats skipQuad
          ALGORITHMS with
      | error e =>
        rw [hr, except_error_bind] at h
        exact Except.noConfusion h
      | ok r1 =>
        rw [hr, except_ok_bind] at h
        cases hb : benchSizes costOf copyCost pattern seed repeats skipQuad
            rest with
        | error e =>
          rw [hb, except_error_bind] at h
          exact Except.noConfusion h
        | ok r2 =>
          rw [hb, except_ok_bind] at h
          injection h with h
          subst h
          simp only [keysOf, List.map_append, List.flatMap_cons]
          have h1 := rowsFor_keys costOf copyCost pattern n data repeats
            skipQuad ALGORITHMS r1 hr
          have h2 := ih r2 hb
          simp only [keysOf] at h1 h2
          rw [h1, h2]

theorem benchPatterns_keys (costOf : String → List Int → ℚ)
    (copyCost : List Int → ℚ) (sizes large_sizes : List Nat)
    (repeats : Nat) :
    ∀ (ps : List String) (l : List MRow),
    benchPatterns costOf copyCost sizes large_sizes repeats ps =
      Except.ok l →
    keysOf l = expectedKeys sizes large_sizes ps := by
  intro ps
  induction ps with
  | nil =>
    intro l h
    injection h with h
    subst h
    rfl
  | cons p rest ih =>
    intro l h
    rw [benchPatterns] at h
    cases h1 : benchSizes costOf copyCost p 123 repeats false sizes with
    | error e =>
      rw [h1, except_error_bind] at h
      exact Except.noConfusion h
    | ok small =>
      rw [h1, except_ok_bind] at h
      cases h2 : benchSizes costOf copyCost p 777 repeats true large_sizes with
      | error e =>
        rw [h2, except_error_bind] at h
        exact Except.noConfusion h
      | ok large =>
        rw [h2, except_ok_bind] at h
        cases h3 : benchPatterns costOf copyCost sizes large_sizes repeats
            rest with
        | error e =>
          rw [h3, except_error_bind] at h
          exact Except.noConfusion h
        | ok r =>
          rw [h3, except_ok_bind] at h
          injection h with h
          subst h
          simp only [keysOf, List.map_append, expectedKeys, List.flatMap_cons]
          have k1 := benchSizes_keys costOf copyCost p 123 repeats false
            sizes small h1
          have k2 := benchSizes_keys costOf copyCost p 777 repeats true
            large_sizes large h2
          have k3 := ih r h3
          simp only [keysOf] at k1 k2 k3
          simp only [expectedKeys] at k3
          rw [k1, k2, k3]
          congr 1

theorem rowsFor_exists (costOf : String → List Int → ℚ)
    (copyCost : List Int → ℚ) (pattern : String) (nn : Nat) (data : List Int)
    (repeats : Nat) (skipQuad : Bool) (h : 0 < repeats) :
    ∀ names, ∃ l, rowsFor costOf copyCost pattern nn data repeats skipQuad
      names = Except.ok l := by
  intro names
  induction names with
  | nil => exact ⟨[], rfl⟩
  | cons nmf rest ih =>
    obtain ⟨name, f⟩ := nmf
    obtain ⟨l, hl⟩ := ih
    cases hs : (skipQuad && name == "Insertion") with
    | true =>
      refine ⟨l, ?_⟩
      rw [rowsFor, if_pos hs]
      exact hl
    | false =>
      refine ⟨⟨pattern, nn, name, .num (copyCost data + costOf name data)⟩ ::
        l, ?_⟩
      rw [rowsFor, if_neg (by simp [hs]), time_algorithm_of_pos _ _ _ _ h,
        except_ok_bind, hl, except_ok_bind]

theorem make_dataset_sorted_eq (n seed : Nat) :
    make_dataset n "sorted" seed = Except.ok (sortedList n) := rfl

theorem benchSizes_sorted_exists (costOf : String → List Int → ℚ)
    (copyCost : List Int → ℚ) (seed repeats : Nat) (skipQuad : Bool)
    (h : 0 < repeats) :
    ∀ ns, ∃ l, benchSizes costOf copyCost "sorted" seed repeats skipQuad ns =
      Except.ok l := by
  intro ns
  induction ns with
  | nil => exact ⟨[], rfl⟩
  | cons n rest ih =>
    obtain ⟨l2, h2⟩ := ih
    obtain ⟨l1, h1⟩ := rowsFor_exists costOf copyCost "sorted" n
      (sortedList n) repeats skipQuad h ALGORITHMS
    refine ⟨l1 ++ l2, ?_⟩
    rw [benchSizes, make_dataset_sorted_eq, except_ok_bind, h1,
      except_ok_bind, h2, except_ok_bind]

theorem benchPatterns_sorted_exists (costOf : String → List Int → ℚ)
    (copyCost : List Int → ℚ) (sizes large_sizes : List Nat) (repeats : Nat)
    (h : 0 < repeats) :
    ∀ ps, (∀ p ∈ ps, p = "sorted") →
    ∃ l, benchPatterns costOf copyCost sizes large_sizes repeats ps =
      Except.ok l := by
  intro ps
  induction ps with
  | nil => exact fun _ => ⟨[], rfl⟩
  | cons p rest ih =>
    intro hall
    obtain ⟨r, hr⟩ := ih (fun q hq => hall q (by simp [hq]))
    obtain rfl : p = "sorted" := hall p (by simp)
    obtain ⟨s1, hs1⟩ := benchSizes_sorted_exists costOf copyCost 123 repeats
      false h sizes
    obtain ⟨s2, hs2⟩ := benchSizes_sorted_exists costOf copyCost 777 repeats
      true h large_sizes
    refine ⟨s1 ++ s2 ++ r, ?_⟩
    rw [benchPatterns, hs1, except_ok_bind, hs2, except_ok_bind, hr,
      except_ok_bind]

theorem keysOf_filter_n_length (rows : List MRow) (m : Nat) :
    ((keysOf rows).filter (fun k => k.2.1 == m)).length =
      (rows.filter (fun r => r.n == m)).length := by
  simp only [keysOf]
  rw [List.filter_map, List.length_map]
  rfl

/-- C4: for every configuration, the orchestrator's rows come in the
deterministic order pattern-major, then size (small sizes before large
sizes), then algorithm-registration order, with every registered algorithm
at each small size and only the non-quadratic algorithms at each large size
(`expectedKeys` spells out exactly that order); and the concrete scenario
`small_sizes = [10]`, `large_sizes = [100]`, `patterns = ["sorted"]`
produces exactly 3 rows of size 10 and exactly 2 rows of size 100. -/
theorem claim_C4_row_order_and_scenario :
    (∀ (costOf : String → List Int → ℚ) (copyCost : List Int → ℚ)
      (sizes large_sizes : List Nat) (patterns : List String)
      (repeats : Nat) (rows : List MRow),
      run_benchmarks costOf copyCost sizes large_sizes patterns repeats =
        Except.ok rows →
      keysOf rows = expectedKeys sizes large_sizes patterns) ∧
    (∀ (costOf : String → List Int → ℚ) (copyCost : List Int → ℚ)
      (repeats : Nat), 0 < repeats →
      ∃ rows,
        run_benchmarks costOf copyCost [10] [100] ["sorted"] repeats =
          Except.ok rows ∧
        (rows.filter (fun r => r.n == 10)).length = 3 ∧
        (rows.filter (fun r => r.n == 100)).length = 2) := by
  constructor
  · intro costOf copyCost sizes large_sizes patterns repeats rows hok
    exact benchPatterns_keys costOf copyCost sizes large_sizes repeats
      patterns rows hok
  · intro costOf copyCost repeats hrep
    obtain ⟨rows, hok⟩ := benchPatterns_sorted_exists costOf copyCost [10]
      [100] repeats hrep ["sorted"] (by simp)
    have hk := benchPatterns_keys costOf copyCost [10] [100] repeats
      ["sorted"] rows hok
    refine ⟨rows, hok, ?_, ?_⟩
    · rw [← keysOf_filter_n_length rows 10, hk]
      rfl
    · rw [← keysOf_filter_n_length rows 100, hk]
      rfl

theorem claim_C4_witness :
    ∃ rows,
      run_benchmarks (fun _ _ => 0) (fun _ => 0) [10] [100] ["sorted"] 1 =
        Except.ok rows ∧
      (rows.filter (fun r => r.n == 10)).length = 3 ∧
      (rows.filter (fun r => r.n == 100)).length = 2 :=
  claim_C4_row_order_and_scenario.2 (fun _ _ => 0) (fun _ => 0) 1
    (by decide)

theorem keysBlock_nodup (p : String) (ns : List Nat) (names : List String)
    (hns : ns.Nodup) (hnames : names.Nodup) :
    (ns.flatMap (fun n => names.map (fun a => (p, n, a)))).Nodup := by
  rw [List.nodup_flatMap]
  constructor
  · intro n _
    exact hnames.map (fun a b hab => by simpa using hab)
  · refine List.Pairwise.imp ?_ hns
    intro n m hnm k hk1 hk2
    simp only [List.mem_map] at hk1 hk2
    obtain ⟨a, _, rfl⟩ := hk1
    obtain ⟨b, _, hab⟩ := hk2
    have hmn : m = n := by
      have := hab
      simp only [Prod.mk.injEq] at this
      exact this.2.1
    exact hnm hmn.symm

theorem expectedKeys_nodup (sizes large_sizes : List Nat)
    (patterns : List String) (hp : patterns.Nodup) (hs : sizes.Nodup)
    (hl : large_sizes.Nodup) (hd : ∀ n ∈ sizes, n ∉ large_sizes) :
    (expectedKeys sizes large_sizes patterns).Nodup := by
  rw [expectedKeys, List.nodup_flatMap]
  constructor
  · intro p _
    rw [List.nodup_append]
    refine ⟨keysBlock_nodup p sizes _ hs (by decide),
      keysBlock_nodup p large_sizes _ hl (by decide), ?_⟩
    intro k hk1 hk2
    simp only [List.mem_flatMap, List.mem_map] at hk1 hk2
    obtain ⟨n, hn, a, _, rfl⟩ := hk1
    obtain ⟨m, hm, b, _, hab⟩ := hk2
    have hmn : m = n := by
      simp only [Prod.mk.injEq] at hab
      exact hab.2.1
    exact hd n hn (hmn ▸ hm)
  · refine List.Pairwise.imp ?_ hp
    intro p q hpq k hk1 hk2
    simp only [List.mem_append, List.mem_flatMap, List.mem_map] at hk1 hk2
    have h1 : k.1 = p := by
      rcases hk1 with ⟨n, _, a, _, rfl⟩ | ⟨n, _, a, _, rfl⟩ <;> rfl
    have h2 : k.1 = q := by
      rcases hk2 with ⟨n, _, a, _, rfl⟩ | ⟨n, _, a, _, rfl⟩ <;> rfl
    exact hpq (h1 ▸ h2)

/-- C9 counterexample: a configuration with a repeated pattern makes
`run_benchmarks` emit the same `(pattern, size, algorithm)` triple twice, so
"at most one row per distinct triple for every configuration" fails. -/
theorem claim_C9_counterexample :
    run_benchmarks (fun _ _ => 0) (fun _ => 0) [1] [] ["sorted", "sorted"] 1 =
      Except.ok
        [⟨"sorted", 1, "Insertion", .num (0 + 0)⟩,
         ⟨"sorted", 1, "Merge", .num (0 + 0)⟩,
         ⟨"sorted", 1, "Timsort (built-in)", .num (0 + 0)⟩,
         ⟨"sorted", 1, "Insertion", .num (0 + 0)⟩,
         ⟨"sorted", 1, "Merge", .num (0 + 0)⟩,
         ⟨"sorted", 1, "Timsort (built-in)", .num (0 + 0)⟩] ∧
    ¬ (keysOf
        [⟨"sorted", 1, "Insertion", .num (0 + 0)⟩,
         ⟨"sorted", 1, "Merge", .num (0 + 0)⟩,
         ⟨"sorted", 1, "Timsort (built-in)", .num (0 + 0)⟩,
         ⟨"sorted", 1, "Insertion", .num (0 + 0)⟩,
         ⟨"sorted", 1, "Merge", .num (0 + 0)⟩,
         ⟨"sorted", 1, "Timsort (built-in)", .num (0 + 0)⟩]).Nodup :=
  ⟨rfl, by decide⟩

/-- C9 (amended): provided the configuration itself contains no duplicates —
`patterns`, `small_sizes` and `large_sizes` are duplicate-free and no size
appears both as a small and as a large size — every successful run emits at
most one row per distinct `(pattern, size, algorithm_name)` triple. -/
theorem claim_C9_amended_at_most_one_row (costOf : String → List Int → ℚ)
    (copyCost : List Int → ℚ) (sizes large_sizes : List Nat)
    (patterns : List String) (repeats : Nat) (rows : List MRow)
    (hp : patterns.Nodup) (hs : sizes.Nodup) (hl : large_sizes.Nodup)
    (hd : ∀ n ∈ sizes, n ∉ large_sizes)
    (hok : run_benchmarks costOf copyCost sizes large_sizes patterns
      repeats = Except.ok rows) :
    (keysOf rows).Nodup := by
  rw [benchPatterns_keys costOf copyCost sizes large_sizes repeats patterns
    rows hok]
  exact expectedKeys_nodup sizes large_sizes patterns hp hs hl hd

theorem claim_C9_amended_witness :
    ∃ rows,
      run_benchmarks (fun _ _ => 0) (fun _ => 0) [10] [100] ["sorted"] 1 =
        Except.ok rows ∧ (keysOf rows).Nodup := by
  obtain ⟨rows, hok⟩ := benchPatterns_sorted_exists (fun _ _ => 0)
    (fun _ => 0) [10] [100] 1 (by decide) ["sorted"] (by simp)
  exact ⟨rows, hok,
    claim_C9_amended_at_most_one_row (fun _ _ => 0) (fun _ => 0) [10] [100]
      ["sorted"] 1 rows (by decide) (by decide) (by decide) (by decide) hok⟩

/-! ## Growth-factor analyzer -/

/-- A positive numeric float (the shape of every duration that the timing
harness can actually record). -/
def isPosNum : PyFloat → Bool
  | .num q => decide (0 < q)
  | .nan => false

/-- Whether a growth pair label involves the given ladder size. -/
def pairTouches (pair : String) (n : Nat) : Bool :=
  (pair == "1k→2k" && (n == 1000 || n == 2000)) ||
  (pair == "2k→5k" && (n == 2000 || n == 5000))

theorem pyDivF_nan_den (a : PyFloat) : pyDivF a .nan = Except.ok .nan := rfl

theorem pyDivF_of_posden (a : PyFloat) (b : PyFloat)
    (hb : isPosNum b = true) :
    ∃ g, pyDivF a b = Except.ok g ∧ (g = PyFloat.nan ↔ a = PyFloat.nan) := by
  cases b with
  | nan => simp [isPosNum] at hb
  | num qb =>
    have hq : ¬ qb = 0 := by
      simp only [isPosNum, decide_eq_true_eq] at hb
      exact ne_of_gt hb
    cases a with
    | nan => exact ⟨.nan, by simp [pyDivF, hq], by simp⟩
    | num qa => exact ⟨.num (qa / qb), by simp [pyDivF, hq], by simp⟩

theorem pyDivF_nanpos (a b : PyFloat)
    (hb : b = PyFloat.nan ∨ isPosNum b = true) :
    ∃ g, pyDivF a b = Except.ok g ∧
      (g = PyFloat.nan ↔ (a = PyFloat.nan ∨ b = PyFloat.nan)) := by
  rcases hb with rfl | hb
  · exact ⟨.nan, rfl, by simp⟩
  · obtain ⟨g, hg, hiff⟩ := pyDivF_of_posden a b hb
    have hbne : b ≠ PyFloat.nan := by
      cases b with
      | num qb => simp
      | nan => simp [isPosNum] at hb
    refine ⟨g, hg, ?_⟩
    rw [hiff]
    constructor
    · exact fun h => Or.inl h
    · rintro (h | h)
      · exact h
      · exact absurd h hbne

theorem pyFoldMin_posnum (vs : List PyFloat) :
    ∀ (v : PyFloat), isPosNum v = true → (∀ x ∈ vs, isPosNum x = true) →
    isPosNum (pyFoldMin v vs) = true := by
  induction vs with
  | nil =>
    intro v hv _
    exact hv
  | cons x xs ih =>
    intro v hv hall
    simp only [pyFoldMin, List.foldl_cons]
    by_cases hx : pyLtF x v = true
    · rw [if_pos hx]
      exact ih x (hall x (by simp)) (fun y hy => hall y (by simp [hy]))
    · rw [if_neg hx]
      exact ih v hv (fun y hy => hall y (by simp [hy]))

theorem cellTime_nan_of_missing (rows : List MRow) (p a : String) (n : Nat)
    (h : ∀ r ∈ rows, matchesCell r p n a = false) :
    cellTime rows p a n = PyFloat.nan := by
  have hfil : rows.filter (fun r => matchesCell r p n a) = [] := by
    rw [List.filter_eq_nil_iff]
    intro r hr
    simp [h r hr]
  simp [cellTime, hfil]

theorem cellTime_pos_of_present (rows : List MRow) (p a : String) (n : Nat)
    (hpos : ∀ r ∈ rows, isPosNum r.time_sec = true)
    (hpresent : ∃ r ∈ rows, matchesCell r p n a = true) :
    isPosNum (cellTime rows p a n) = true := by
  obtain ⟨r, hr, hm⟩ := hpresent
  have hmem : r ∈ rows.filter (fun r => matchesCell r p n a) :=
    List.mem_filter.mpr ⟨hr, hm⟩
  have hallf : ∀ x ∈ (rows.filter (fun r => matchesCell r p n a)).map
      (fun r => r.time_sec), isPosNum x = true := by
    intro x hx
    obtain ⟨r', hr', rfl⟩ := List.mem_map.mp hx
    exact hpos r' (List.mem_filter.mp hr').1
  rw [cellTime]
  cases hv : (rows.filter (fun r => matchesCell r p n a)).map
      (fun r => r.time_sec) with
  | nil =>
    exfalso
    have : r.time_sec ∈ (rows.filter (fun r => matchesCell r p n a)).map
        (fun r => r.time_sec) := List.mem_map_of_mem _ hmem
    rw [hv] at this
    exact absurd this (List.not_mem_nil _)
  | cons v vs =>
    rw [hv] at hallf
    exact pyFoldMin_posnum vs v (hallf v (by simp))
      (fun y hy => hallf y (by simp [hy]))

theorem cellTime_nan_or_pos (rows : List MRow) (p a : String) (n : Nat)
    (hpos : ∀ r ∈ rows, isPosNum r.time_sec = true) :
    cellTime rows p a n = PyFloat.nan ∨
      isPosNum (cellTime rows p a n) = true := by
  by_cases hpresent : ∃ r ∈ rows, matchesCell r p n a = true
  · exact Or.inr (cellTime_pos_of_present rows p a n hpos hpresent)
  · refine Or.inl (cellTime_nan_of_missing rows p a n ?_)
    intro r hr
    by_contra hne
    exact hpresent ⟨r, hr, by
      cases hmc : matchesCell r p n a with
      | true => rfl
      | false => exact absurd hmc hne⟩

theorem growthCell_shape_of (rows : List MRow) (p a : String)
    (h0 : cellTime rows p a 1000 = PyFloat.nan ∨
      isPosNum (cellTime rows p a 1000) = true)
    (h1 : cellTime rows p a 2000 = PyFloat.nan ∨
      isPosNum (cellTime rows p a 2000) = true) :
    ∃ g1 g2, growthCell rows p a = Except.ok
      [⟨p, a, "1k→2k", g1⟩, ⟨p, a, "2k→5k", g2⟩] ∧
      (g1 = PyFloat.nan ↔ (cellTime rows p a 2000 = PyFloat.nan ∨
        cellTime rows p a 1000 = PyFloat.nan)) ∧
      (g2 = PyFloat.nan ↔ (cellTime rows p a 5000 = PyFloat.nan ∨
        cellTime rows p a 2000 = PyFloat.nan)) := by
  obtain ⟨g1, hg1, hiff1⟩ := pyDivF_nanpos (cellTime rows p a 2000)
    (cellTime rows p a 1000) h0
  obtain ⟨g2, hg2, hiff2⟩ := pyDivF_nanpos (cellTime rows p a 5000)
    (cellTime rows p a 2000) h1
  refine ⟨g1, g2, ?_, hiff1, hiff2⟩
  simp only [growthCell]
  rw [hg1, except_ok_bind, hg2, except_ok_bind]

theorem growthAlgos_exists (rows : List MRow) (p : String) :
    ∀ (algos : List String),
    (∀ a ∈ algos, ∃ c, growthCell rows p a = Except.ok c) →
    ∃ l, growthAlgos rows p algos = Except.ok l := by
  intro algos
  induction algos with
  | nil => exact fun _ => ⟨[], rfl⟩
  | cons a rest ih =>
    intro hall
    obtain ⟨c, hc⟩ := hall a (by simp)
    obtain ⟨r, hr⟩ := ih (fun b hb => hall b (by simp [hb]))
    exact ⟨c ++ r, by rw [growthAlgos, hc, except_ok_bind, hr, except_ok_bind]⟩

theorem growthPatterns_exists (rows : List MRow) :
    ∀ (ps : List String),
    (∀ p ∈ ps, ∀ a ∈ GROWTH_ALGOS, ∃ c, growthCell rows p a = Except.ok c) →
    ∃ l, growthPatterns rows ps = Except.ok l := by
  intro ps
  induction ps with
  | nil => exact fun _ => ⟨[], rfl⟩
  | cons p rest ih =>
    intro hall
    obtain ⟨c, hc⟩ := growthAlgos_exists rows p GROWTH_ALGOS
      (hall p (by simp))
    obtain ⟨r, hr⟩ := ih (fun q hq => hall q (by simp [hq]))
    exact ⟨c ++ r,
      by rw [growthPatterns, hc, except_ok_bind, hr, except_ok_bind]⟩

theorem growthCell_ok_shape (rows : List MRow) (p a : String)
    (c : List GRow) (h : growthCell rows p a = Except.ok c) :
    ∃ g1 g2, c = [⟨p, a, "1k→2k", g1⟩, ⟨p, a, "2k→5k", g2⟩] ∧
      pyDivF (cellTime rows p a 2000) (cellTime rows p a 1000) =
        Except.ok g1 ∧
      pyDivF (cellTime rows p a 5000) (cellTime rows p a 2000) =
        Except.ok g2 := by
  simp only [growthCell] at h
  cases h1 : pyDivF (cellTime rows p a 2000) (cellTime rows p a 1000) with
  | error e =>
    rw [h1, except_error_bind] at h
    exact Except.noConfusion h
  | ok g1 =>
    rw [h1, except_ok_bind] at h
    cases h2 : pyDivF (cellTime rows p a 5000) (cellTime rows p a 2000) with
    | error e =>
      rw [h2, except_error_bind] at h
      exact Except.noConfusion h
    | ok g2 =>
      rw [h2, except_ok_bind] at h
      injection h with h
      exact ⟨g1, g2, h.symm, rfl, rfl⟩

theorem growthAlgos_members (rows : List MRow) (p : String) :
    ∀ (algos : List String) (l : List GRow),
    growthAlgos rows p algos = Except.ok l →
    ∀ g ∈ l, ∃ a ∈ algos, g.pattern = p ∧ g.algorithm = a ∧
      ((g.pair = "1k→2k" ∧
        pyDivF (cellTime rows p a 2000) (cellTime rows p a 1000) =
          Except.ok g.growth) ∨
       (g.pair = "2k→5k" ∧
        pyDivF (cellTime rows p a 5000) (cellTime rows p a 2000) =
          Except.ok g.growth)) := by
  intro algos
  induction algos with
  | nil =>
    intro l h g hg
    injection h with h
    subst h
    exact absurd hg (List.not_mem_nil g)
  | cons a rest ih =>
    intro l h g hg
    rw [growthAlgos] at h
    cases hc : growthCell rows p a with
    | error e =>
      rw [hc, except_error_bind] at h
      exact Except.noConfusion h
    | ok c =>
      rw [hc, except_ok_bind] at h
      cases hr : growthAlgos rows p rest with
      | error e =>
        rw [hr, except_error_bind] at h
        exact Except.noConfusion h
      | ok r =>
        rw [hr, except_ok_bind] at h
        injection h with h
        subst h
        obtain ⟨g1, g2, hcshape, hd1, hd2⟩ :=
          growthCell_ok_shape rows p a c hc
        rcases List.mem_append.mp hg with hgc | hgr
        · subst hcshape
          rcases List.mem_cons.mp hgc with rfl | hgc2
          · exact ⟨a, by simp, rfl, rfl, Or.inl ⟨rfl, hd1⟩⟩
          · rcases List.mem_cons.mp hgc2 with rfl | hgc3
            · exact ⟨a, by simp, rfl, rfl, Or.inr ⟨rfl, hd2⟩⟩
            · exact absurd hgc3 (List.not_mem_nil g)
        · obtain ⟨b, hb, hrest⟩ := ih r hr g hgr
          exact ⟨b, by simp [hb], hrest⟩

theorem growthPatterns_members (rows : List MRow) :
    ∀ (ps : List String) (l : List GRow),
    growthPatterns rows ps = Except.ok l →
    ∀ g ∈ l, ∃ p ∈ ps, ∃ a ∈ GROWTH_ALGOS, g.pattern = p ∧
      g.algorithm = a ∧
      ((g.pair = "1k→2k" ∧
        pyDivF (cellTime rows p a 2000) (cellTime rows p a 1000) =
          Except.ok g.growth) ∨
       (g.pair = "2k→5k" ∧
        pyDivF (cellTime rows p a 5000) (cellTime rows p a 2000) =
          Except.ok g.growth)) := by
  intro ps
  induction ps with
  | nil =>
    intro l h g hg
    injection h with h
    subst h
    exact absurd hg (List.not_mem_nil g)
  | cons p rest ih =>
    intro l h g hg
    rw [growthPatterns] at h
    cases hc : growthAlgos rows p GROWTH_ALGOS with
    | error e =>
      rw [hc, except_error_bind] at h
      exact Except.noConfusion h
    | ok c =>
      rw [hc, except_ok_bind] at h
      cases hr : growthPatterns rows rest with
      | error e =>
        rw [hr, except_error_bind] at h
        exact Except.noConfusion h
      | ok r =>
        rw [hr, except_ok_bind] at h
        injection h with h
        subst h
        rcases List.mem_append.mp hg with hgc | hgr
        · obtain ⟨a, ha, hrest⟩ := growthAlgos_members rows p GROWTH_ALGOS
            c hc g hgc
          exact ⟨p, by simp, a, ha, hrest⟩
        · obtain ⟨q, hq, rest'⟩ := ih r hr g hgr
          exact ⟨q, by simp [hq], rest'⟩

theorem growthAlgos_keymap (rows : List MRow) (p : String) :
    ∀ (algos : List String) (l : List GRow),
    growthAlgos rows p algos = Except.ok l →
    l.map (fun g => (g.pattern, g.algorithm, g.pair)) =
      algos.flatMap (fun a => [(p, a, "1k→2k"), (p, a, "2k→5k")]) := by
  intro algos
  induction algos with
  | nil =>
    intro l h
    injection h with h
    subst h
    rfl
  | cons a rest ih =>
    intro l h
    rw [growthAlgos] at h
    cases hc : growthCell rows p a with
    | error e =>
      rw [hc, except_error_bind] at h
      exact Except.noConfusion h
    | ok c =>
      rw [hc, except_ok_bind] at h
      cases hr : growthAlgos rows p rest with
      | error e =>
        rw [hr, except_error_bind] at h
        exact Except.noConfusion h
      | ok r =>
        rw [hr, except_ok_bind] at h
        injection h with h
        subst h
        obtain ⟨g1, g2, hcshape, _, _⟩ := growthCell_ok_shape rows p a c hc
        subst hcshape
        rw [List.map_append, ih r hr, List.flatMap_cons]
        rfl

theorem growthPatterns_keymap (rows : List MRow) :
    ∀ (ps : List String) (l : List GRow),
    growthPatterns rows ps = Except.ok l →
    l.map (fun g => (g.pattern, g.algorithm, g.pair)) =
      ps.flatMap (fun p => GROWTH_ALGOS.flatMap (fun a =>
        [(p, a, "1k→2k"), (p, a, "2k→5k")])) := by
  intro ps
  induction ps with
  | nil =>
    intro l h
    injection h with h
    subst h
    rfl
  | cons p rest ih =>
    intro l h
    rw [growthPatterns] at h
    cases hc : growthAlgos rows p GROWTH_ALGOS with
    | error e =>
      rw [hc, except_error_bind] at h
      exact Except.noConfusion h
    | ok c =>
      rw [hc, except_ok_bind] at h
      cases hr : growthPatterns rows rest with
      | error e =>
        rw [hr, except_error_bind] at h
        exact Except.noConfusion h
      | ok r =>
        rw [hr, except_ok_bind] at h
        injection h with h
        subst h
        rw [List.map_append, growthAlgos_keymap rows p GROWTH_ALGOS c hc,
          ih r hr, List.flatMap_cons]

/-- C10 counterexample: the claim asserts that *every* input row set yields
exactly 18 GrowthRows, but a row set with a `0.0` duration at a ladder
denominator cell (here `("reversed", 1000, "Merge")`) makes
`g1 = ts[1] / ts[0]` raise `ZeroDivisionError`: the analyzer returns an
error and zero GrowthRows, not 18. -/
theorem claim_C10_counterexample :
    compute_growth
      [⟨"reversed", 1000, "Merge", .num 0⟩,
       ⟨"reversed", 2000, "Merge", .num 1⟩] =
      Except.error "float division by zero" ∧
    compute_growth
      [⟨"reversed", 1000, "Merge", .num 0⟩,
       ⟨"reversed", 2000, "Merge", .num 1⟩] ≠
      Except.ok (GROWTH_PATTERNS.flatMap (fun p =>
        GROWTH_ALGOS.flatMap (fun a =>
          [⟨p, a, "1k→2k", PyFloat.nan⟩, ⟨p, a, "2k→5k", PyFloat.nan⟩]))) := by
  refine ⟨rfl, fun h => ?_⟩
  have e : compute_growth
      [⟨"reversed", 1000, "Merge", .num 0⟩,
       ⟨"reversed", 2000, "Merge", .num 1⟩] =
      Except.error "float division by zero" := rfl
  rw [e] at h
  exact Except.noConfusion h

/-- C10 (amended): on every input row set on which the analysis completes
without a division-by-zero error, the analyzer returns exactly 18
GrowthRows — for each pattern in {random, reversed, nearly_sorted} and each
of the three algorithm names, exactly two rows labelled "1k→2k" and
"2k→5k" over the fixed ladder 1000/2000/5000, in that order — and the
`"sorted"` pattern never appears, regardless of which measurement rows were
supplied. -/
theorem claim_C10_growth_output_shape :
    ∀ (rows : List MRow) (l : List GRow),
    compute_growth rows = Except.ok l →
    l.length = 18 ∧
    l.map (fun g => (g.pattern, g.algorithm, g.pair)) =
      GROWTH_PATTERNS.flatMap (fun p => GROWTH_ALGOS.flatMap (fun a =>
        [(p, a, "1k→2k"), (p, a, "2k→5k")])) ∧
    ∀ g ∈ l, g.pattern ≠ "sorted" := by
  intro rows l h
  have hmap := growthPatterns_keymap rows GROWTH_PATTERNS l h
  refine ⟨?_, hmap, ?_⟩
  · have hlen := congrArg List.length hmap
    rw [List.length_map] at hlen
    rw [hlen]
    rfl
  · intro g hg hsorted
    have hmem : (g.pattern, g.algorithm, g.pair) ∈
        GROWTH_PATTERNS.flatMap (fun p => GROWTH_ALGOS.flatMap (fun a =>
          [(p, a, "1k→2k"), (p, a, "2k→5k")])) := by
      rw [← hmap]
      exact List.mem_map_of_mem _ hg
    rw [hsorted] at hmem
    simp [GROWTH_PATTERNS, GROWTH_ALGOS] at hmem

theorem claim_C10_witness :
    ∃ l, compute_growth [] = Except.ok l ∧ l.length = 18 ∧
      ∀ g ∈ l, g.pattern ≠ "sorted" := by
  have h : compute_growth [] = Except.ok
      (GROWTH_PATTERNS.flatMap (fun p => GROWTH_ALGOS.flatMap (fun a =>
        [⟨p, a, "1k→2k", PyFloat.nan⟩, ⟨p, a, "2k→5k", PyFloat.nan⟩]))) :=
    rfl
  exact ⟨_, h, (claim_C10_growth_output_shape [] _ h).1,
    (claim_C10_growth_output_shape [] _ h).2.2⟩

/-- C5: on any row set whose durations are all positive numbers, if the
required cell `(p*, n*, a*)` has no measurement row while every other
`(pattern, algorithm)` cell of the ladder is fully populated, the analysis
still succeeds, the rows of `(p*, a*)` whose pair touches `n*` carry a NaN
ratio, and every unrelated `(pattern, algorithm)` pair gets a numeric
(non-NaN) ratio. -/
theorem claim_C5_missing_cell_nan (rows : List MRow) (pstar astar : String)
    (nstar : Nat) (hpmem : pstar ∈ GROWTH_PATTERNS)
    (hamem : astar ∈ GROWTH_ALGOS)
    (hnmem : nstar ∈ ([1000, 2000, 5000] : List Nat))
    (hmissing : ∀ r ∈ rows, matchesCell r pstar nstar astar = false)
    (hpos : ∀ r ∈ rows, isPosNum r.time_sec = true)
    (hothers : ∀ p ∈ GROWTH_PATTERNS, ∀ a ∈ GROWTH_ALGOS,
      (p, a) ≠ (pstar, astar) → ∀ n ∈ ([1000, 2000, 5000] : List Nat),
      ∃ r ∈ rows, matchesCell r p n a = true) :
    ∃ l, compute_growth rows = Except.ok l ∧
      (∀ g ∈ l, g.pattern = pstar → g.algorithm = astar →
        pairTouches g.pair nstar = true → g.growth = PyFloat.nan) ∧
      (∀ g ∈ l, (g.pattern, g.algorithm) ≠ (pstar, astar) →
        g.growth ≠ PyFloat.nan) := by
  have hcellok : ∀ p ∈ GROWTH_PATTERNS, ∀ a ∈ GROWTH_ALGOS,
      ∃ c, growthCell rows p a = Except.ok c := by
    intro p _ a _
    obtain ⟨g1, g2, hc, _, _⟩ := growthCell_shape_of rows p a
      (cellTime_nan_or_pos rows p a 1000 hpos)
      (cellTime_nan_or_pos rows p a 2000 hpos)
    exact ⟨_, hc⟩
  obtain ⟨l, hl⟩ := growthPatterns_exists rows GROWTH_PATTERNS hcellok
  refine ⟨l, hl, ?_, ?_⟩
  · intro g hg hpat halgo htouch
    obtain ⟨p, hp, a, ha, hgp, hga, hdisj⟩ :=
      growthPatterns_members rows GROWTH_PATTERNS l hl g hg
    have hpp : p = pstar := hgp.symm.trans hpat
    have haa : a = astar := hga.symm.trans halgo
    subst hpp
    subst haa
    have hnan : cellTime rows p a nstar = PyFloat.nan :=
      cellTime_nan_of_missing rows p a nstar hmissing
    rcases hdisj with ⟨hpair, hdiv⟩ | ⟨hpair, hdiv⟩
    · rw [hpair] at htouch
      have hn12 : nstar = 1000 ∨ nstar = 2000 := by
        simpa [pairTouches] using htouch
      obtain ⟨g', hg', hiff⟩ := pyDivF_nanpos (cellTime rows p a 2000)
        (cellTime rows p a 1000) (cellTime_nan_or_pos rows p a 1000 hpos)
      have hgg : g.growth = g' := by
        have := hdiv.symm.trans hg'
        injection this
      rw [hgg]
      apply hiff.mpr
      rcases hn12 with rfl | rfl
      · exact Or.inr hnan
      · exact Or.inl hnan
    · rw [hpair] at htouch
      have hn25 : nstar = 2000 ∨ nstar = 5000 := by
        simpa [pairTouches] using htouch
      obtain ⟨g', hg', hiff⟩ := pyDivF_nanpos (cellTime rows p a 5000)
        (cellTime rows p a 2000) (cellTime_nan_or_pos rows p a 2000 hpos)
      have hgg : g.growth = g' := by
        have := hdiv.symm.trans hg'
        injection this
      rw [hgg]
      apply hiff.mpr
      rcases hn25 with rfl | rfl
      · exact Or.inr hnan
      · exact Or.inl hnan
  · intro g hg hne
    obtain ⟨p, hp, a, ha, hgp, hga, hdisj⟩ :=
      growthPatterns_members rows GROWTH_PATTERNS l hl g hg
    rw [hgp, hga] at hne
    have hposcell : ∀ n ∈ ([1000, 2000, 5000] : List Nat),
        isPosNum (cellTime rows p a n) = true := fun n hn =>
      cellTime_pos_of_present rows p a n hpos (hothers p hp a ha hne n hn)
    have hnonnan : ∀ n ∈ ([1000, 2000, 5000] : List Nat),
        cellTime rows p a n ≠ PyFloat.nan := by
      intro n hn hcontra
      have hc := hposcell n hn
      rw [hcontra] at hc
      simp [isPosNum] at hc
    rcases hdisj with ⟨hpair, hdiv⟩ | ⟨hpair, hdiv⟩
    · obtain ⟨g', hg', hiff⟩ := pyDivF_nanpos (cellTime rows p a 2000)
        (cellTime rows p a 1000) (Or.inr (hposcell 1000 (by simp)))
      have hgg : g.growth = g' := by
        have := hdiv.symm.trans hg'
        injection this
      rw [hgg]
      intro hggnan
      rcases hiff.mp hggnan with hcn | hcn
      · exact hnonnan 2000 (by simp) hcn
      · exact hnonnan 1000 (by simp) hcn
    · obtain ⟨g', hg', hiff⟩ := pyDivF_nanpos (cellTime rows p a 5000)
        (cellTime rows p a 2000) (Or.inr (hposcell 2000 (by simp)))
      have hgg : g.growth = g' := by
        have := hdiv.symm.trans hg'
        injection this
      rw [hgg]
      intro hggnan
      rcases hiff.mp hggnan with hcn | hcn
      · exact hnonnan 5000 (by simp) hcn
      · exact hnonnan 2000 (by simp) hcn

/-- C5 counterexample: the claim quantifies over *every* input row set, but a
row set carrying a `0.0` duration in an unrelated `(pattern, algorithm)` pair
(here `("random", "Merge")`), while the required `("random", 1000,
"Insertion")` cell is missing, makes `g1 = ts[1] / ts[0]` raise
`ZeroDivisionError`: the analysis returns no ratios at all instead of
numeric ratios for the unrelated pair. -/
theorem claim_C5_counterexample :
    (∀ r ∈ ([⟨"random", 1000, "Merge", .num 0⟩,
             ⟨"random", 2000, "Merge", .num 1⟩] : List MRow),
      matchesCell r "random" 1000 "Insertion" = false) ∧
    compute_growth
      [⟨"random", 1000, "Merge", .num 0⟩,
       ⟨"random", 2000, "Merge", .num 1⟩] =
      Except.error "float division by zero" :=
  ⟨by decide, rfl⟩

/-- A fully populated measurement table (all durations 1.0) with the single
cell `("random", 1000, "Insertion")` removed; input for the C5 witness. -/
def witnessRows : List MRow :=
  (GROWTH_PATTERNS.flatMap (fun p => GROWTH_ALGOS.flatMap (fun a =>
    ([1000, 2000, 5000] : List Nat).map (fun n => ⟨p, n, a, .num 1⟩)))).filter
    (fun r => !(matchesCell r "random" 1000 "Insertion"))

theorem claim_C5_witness :
    ∃ l, compute_growth witnessRows = Except.ok l ∧
      (∀ g ∈ l, g.pattern = "random" → g.algorithm = "Insertion" →
        pairTouches g.pair 1000 = true → g.growth = PyFloat.nan) ∧
      (∀ g ∈ l, (g.pattern, g.algorithm) ≠ ("random", "Insertion") →
        g.growth ≠ PyFloat.nan) :=
  claim_C5_missing_cell_nan witnessRows "random" "Insertion" 1000
    (by decide) (by decide) (by decide) (by decide) (by decide) (by decide)

/-! ## Non-mutation of the sort inputs (object-store frame properties) -/

theorem readA_set_ne (s : Store) (r r' : Nat) (x : List Int) (h : r' ≠ r) :
    readA (s.set r x) r' = readA s r' := by
  simp [readA, List.getD_eq_getElem?_getD, List.getElem?_set_ne (by omega : r ≠ r')]

theorem readA_writeElem_ne (s : Store) (r r' i : Nat) (v : Int) (h : r' ≠ r) :
    readA (writeElem s r i v) r' = readA s r' :=
  readA_set_ne s r r' _ h

theorem readA_writeElem_self (s : Store) (r i : Nat) (v : Int)
    (h : r < s.length) :
    readA (writeElem s r i v) r = (readA s r).set i v := by
  simp [writeElem, readA, List.getD_eq_getElem?_getD,
    List.getElem?_set_self h]

theorem length_writeElem (s : Store) (r i : Nat) (v : Int) :
    (writeElem s r i v).length = s.length :=
  List.length_set s r _

theorem innerLoopS_spec (ra : Nat) (key : Int) :
    ∀ (jn : Nat) (s : Store), ra < s.length →
    (innerLoopS ra key jn s).length = s.length ∧
    readA (innerLoopS ra key jn s) ra = innerLoop key jn (readA s ra) ∧
    ∀ r', r' ≠ ra → readA (innerLoopS ra key jn s) r' = readA s r' := by
  intro jn
  induction jn with
  | zero =>
    intro s h
    refine ⟨length_writeElem s ra 0 key, ?_, fun r' hr' =>
      readA_writeElem_ne s ra r' 0 key hr'⟩
    rw [innerLoop]
    exact readA_writeElem_self s ra 0 key h
  | succ j ih =>
    intro s h
    by_cases hlt : key < (readA s ra).getD j 0
    · have hstep : innerLoopS ra key (j + 1) s =
          innerLoopS ra key j (writeElem s ra (j + 1) ((readA s ra).getD j 0)) := by
        rw [innerLoopS, if_pos hlt]
      have hlen : ra < (writeElem s ra (j + 1) ((readA s ra).getD j 0)).length := by
        rw [length_writeElem]
        exact h
      obtain ⟨l1, l2, l3⟩ := ih (writeElem s ra (j + 1) ((readA s ra).getD j 0)) hlen
      refine ⟨?_, ?_, ?_⟩
      · rw [hstep, l1, length_writeElem]
      · rw [hstep, l2, readA_writeElem_self s ra _ _ h, innerLoop, if_pos hlt]
      · intro r' hr'
        rw [hstep, l3 r' hr', readA_writeElem_ne s ra r' _ _ hr']
    · have hstep : innerLoopS ra key (j + 1) s = writeElem s ra (j + 1) key := by
        rw [innerLoopS, if_neg hlt]
      refine ⟨?_, ?_, ?_⟩
      · rw [hstep, length_writeElem]
      · rw [hstep, readA_writeElem_self s ra _ _ h, innerLoop, if_neg hlt]
      · intro r' hr'
        rw [hstep, readA_writeElem_ne s ra r' _ _ hr']

theorem foldS_spec (ra : Nat) :
    ∀ (idxs : List Nat) (s : Store), ra < s.length →
    ((idxs.foldl (fun st i => innerLoopS ra ((readA st ra).getD i 0) i st)
      s)).length = s.length ∧
    readA (idxs.foldl (fun st i => innerLoopS ra ((readA st ra).getD i 0) i st)
      s) ra = idxs.foldl (fun b i => innerLoop (b.getD i 0) i b) (readA s ra) ∧
    ∀ r', r' ≠ ra →
      readA (idxs.foldl (fun st i => innerLoopS ra ((readA st ra).getD i 0) i st)
        s) r' = readA s r' := by
  intro idxs
  induction idxs with
  | nil => exact fun s _ => ⟨rfl, rfl, fun _ _ => rfl⟩
  | cons i rest ih =>
    intro s h
    obtain ⟨s1, s2, s3⟩ := innerLoopS_spec ra ((readA s ra).getD i 0) i s h
    have h' : ra < (innerLoopS ra ((readA s ra).getD i 0) i s).length := by
      rw [s1]
      exact h
    obtain ⟨l1, l2, l3⟩ := ih (innerLoopS ra ((readA s ra).getD i 0) i s) h'
    refine ⟨?_, ?_, ?_⟩
    · rw [List.foldl_cons, l1, s1]
    · rw [List.foldl_cons, List.foldl_cons, l2, s2]
    · intro r' hr'
      rw [List.foldl_cons, l3 r' hr', s3 r' hr']

theorem readA_alloc_new (s : Store) (v : List Int) :
    readA (s ++ [v]) s.length = v := by
  simp [readA, List.getD_eq_getElem?_getD, List.getElem?_concat_length]

theorem readA_alloc_old (s : Store) (v : List Int) (r : Nat)
    (h : r < s.length) :
    readA (s ++ [v]) r = readA s r := by
  simp [readA, List.getD_eq_getElem?_getD, List.getElem?_append_left h]

/-- C6: for each of the three sorting algorithms, running the sort on the
object store leaves the caller's input list object element-wise unchanged
(no mutation of the argument); in addition, the object returned by each
store-level run holds exactly the value of the corresponding pure sort, so
the store model agrees with the functional embedding. -/
theorem claim_C6_sorts_never_mutate_input (s : Store) (r : Nat)
    (h : r < s.length) :
    readA ((insertion_sort_impl s r).1) r = readA s r ∧
    readA ((merge_sort_impl s r).1) r = readA s r ∧
    readA ((timsort_impl s r).1) r = readA s r ∧
    readA ((insertion_sort_impl s r).1) ((insertion_sort_impl s r).2) =
      insertion_sort (readA s r) ∧
    readA ((merge_sort_impl s r).1) ((merge_sort_impl s r).2) =
      merge_sort (readA s r) ∧
    readA ((timsort_impl s r).1) ((timsort_impl s r).2) =
      timsort (readA s r) := by
  have hra : s.length < (s ++ [readA s r]).length := by
    simp
  have hnew : readA (s ++ [readA s r]) s.length = readA s r :=
    readA_alloc_new s (readA s r)
  obtain ⟨f1, f2, f3⟩ := foldS_spec s.length
    (List.range' 1 ((readA (s ++ [readA s r]) s.length).length - 1))
    (s ++ [readA s r]) hra
  have himpl : insertion_sort_impl s r =
      ((List.range' 1 ((readA (s ++ [readA s r]) s.length).length - 1)).foldl
        (fun st i => innerLoopS s.length ((readA st s.length).getD i 0) i st)
        (s ++ [readA s r]), s.length) := rfl
  refine ⟨?_, readA_alloc_old s _ r h, readA_alloc_old s _ r h, ?_,
    readA_alloc_new s _, readA_alloc_new s _⟩
  · rw [himpl]
    have hne : r ≠ s.length := by omega
    exact (f3 r hne).trans (readA_alloc_old s _ r h)
  · rw [himpl]
    rw [f2, hnew, insertion_sort]

theorem claim_C6_witness :
    readA ((insertion_sort_impl [[3, 1, 2]] 0).1) 0 = readA [[3, 1, 2]] 0 ∧
    readA ((merge_sort_impl [[3, 1, 2]] 0).1) 0 = readA [[3, 1, 2]] 0 ∧
    readA ((timsort_impl [[3, 1, 2]] 0).1) 0 = readA [[3, 1, 2]] 0 ∧
    readA ((insertion_sort_impl [[3, 1, 2]] 0).1)
      ((insertion_sort_impl [[3, 1, 2]] 0).2) =
      insertion_sort (readA [[3, 1, 2]] 0) ∧
    readA ((merge_sort_impl [[3, 1, 2]] 0).1)
      ((merge_sort_impl [[3, 1, 2]] 0).2) =
      merge_sort (readA [[3, 1, 2]] 0) ∧
    readA ((timsort_impl [[3, 1, 2]] 0).1)
      ((timsort_impl [[3, 1, 2]] 0).2) = timsort (readA [[3, 1, 2]] 0) :=
  claim_C6_sorts_never_mutate_input [[3, 1, 2]] 0 (by decide)

end SortBench
